import Mathlib

/-!
Verification development for the dataISP credential-analysis scripts
(`process.py` and `files.py`).

The Python code is shallowly embedded: a Python `str` is a list of
Unicode code points (`PyStr`); `bytes` values are lists of naturals
below 256; the insertion-ordered Python `dict` is an association list
updated in place; machine words are naturals reduced modulo 2^32.
The filesystem state seen by a run is passed in explicitly: a rainbow
directory is `Option (List TableFile)` (`none` models a missing
directory), and each file either opens with its content or fails to
open.  The broad Python `except` around the whole scanning loop is
modelled by an explicit abort flag: once a step raises, the function
returns the dictionary accumulated so far.
-/

/-- A Python `str`: a list of Unicode code points (lone surrogates are
representable, as in CPython). -/
abbrev PyStr := List Nat

/-- Code points of a Lean string literal, as a Python `str` value. -/
def strCodes (s : String) : List Nat := s.data.map Char.toNat

/-- Truncation to a 32-bit word. -/
def w32 (n : Nat) : Nat := n % 4294967296

/-- 32-bit left rotation (argument assumed below 2^32). -/
def rotl32 (x s : Nat) : Nat := w32 (x <<< s) ||| (x >>> (32 - s))

/-- MD4 round-1 bitwise function F. -/
def mF (x y z : Nat) : Nat := (x &&& y) ||| ((x ^^^ 4294967295) &&& z)

/-- MD4 round-2 bitwise function G. -/
def mG (x y z : Nat) : Nat := (x &&& y) ||| (x &&& z) ||| (y &&& z)

/-- MD4 round-3 bitwise function H. -/
def mH (x y z : Nat) : Nat := x ^^^ y ^^^ z

/-- Little-endian bytes of a 32-bit word. -/
def le32 (n : Nat) : List Nat :=
  [n % 256, n / 256 % 256, n / 65536 % 256, n / 16777216 % 256]

/-- Little-endian bytes of a 64-bit length field. -/
def le64 (n : Nat) : List Nat := (List.range 8).map (fun i => n / 256 ^ i % 256)

/-- Group a little-endian byte list into 32-bit words. -/
def leWords : List Nat → List Nat
  | b0 :: b1 :: b2 :: b3 :: rest =>
      (b0 + 256 * b1 + 65536 * b2 + 16777216 * b3) :: leWords rest
  | _ => []

/-- MD4 padding: append 0x80, zero bytes to 56 mod 64, then the bit
length as a 64-bit little-endian field. -/
def md4Pad (msg : List Nat) : List Nat :=
  msg ++ 128 :: List.replicate ((119 - msg.length % 64) % 64) 0 ++ le64 (8 * msg.length)

/-- One MD4 step: update the first state component and rotate the state
so that the next step updates the next register in the a,d,c,b cycle. -/
def md4Op (f : Nat → Nat → Nat → Nat) (add : Nat) (X : List Nat)
    (st : Nat × Nat × Nat × Nat) (ks : Nat × Nat) : Nat × Nat × Nat × Nat :=
  (st.2.2.2, rotl32 (w32 (st.1 + f st.2.1 st.2.2.1 st.2.2.2 + X.getD ks.1 0 + add)) ks.2,
   st.2.1, st.2.2.1)

/-- One MD4 round: 16 steps over the given message-word indices and
shift amounts. -/
def md4Round (f : Nat → Nat → Nat → Nat) (add : Nat) (X : List Nat)
    (ks ss : List Nat) (st : Nat × Nat × Nat × Nat) : Nat × Nat × Nat × Nat :=
  (ks.zip ss).foldl (md4Op f add X) st

/-- MD4 compression of one 64-byte block. -/
def md4Compress (st : Nat × Nat × Nat × Nat) (block : List Nat) : Nat × Nat × Nat × Nat :=
  let X := leWords block
  let s1 := md4Round mF 0 X (List.range 16)
    [3, 7, 11, 19, 3, 7, 11, 19, 3, 7, 11, 19, 3, 7, 11, 19] st
  let s2 := md4Round mG 1518500249 X
    [0, 4, 8, 12, 1, 5, 9, 13, 2, 6, 10, 14, 3, 7, 11, 15]
    [3, 5, 9, 13, 3, 5, 9, 13, 3, 5, 9, 13, 3, 5, 9, 13] s1
  let s3 := md4Round mH 1859775393 X
    [0, 8, 4, 12, 2, 10, 6, 14, 1, 9, 5, 13, 3, 11, 7, 15]
    [3, 9, 11, 15, 3, 9, 11, 15, 3, 9, 11, 15, 3, 9, 11, 15] s2
  (w32 (st.1 + s3.1), w32 (st.2.1 + s3.2.1),
   w32 (st.2.2.1 + s3.2.2.1), w32 (st.2.2.2 + s3.2.2.2))

/-- Fold the compression function over 64-byte blocks; the fuel argument
(instantiated with the message length) keeps the recursion structural. -/
def md4Go : Nat → List Nat → Nat × Nat × Nat × Nat → Nat × Nat × Nat × Nat
  | 0, _, st => st
  | _, [], st => st
  | fuel + 1, b :: rest, st =>
      md4Go fuel (List.drop 63 rest) (md4Compress st (List.take 64 (b :: rest)))

/-- MD4 digest of a byte string, as 16 little-endian bytes. -/
def md4 (msg : List Nat) : List Nat :=
  let p := md4Pad msg
  let st := md4Go p.length p (1732584193, 4023233417, 2562383102, 271733878)
  le32 st.1 ++ le32 st.2.1 ++ le32 st.2.2.1 ++ le32 st.2.2.2

/-- Whether a code point survives `encode when targeting utf-16le`:
everything except a lone surrogate (CPython raises `UnicodeEncodeError`
on code points 0xD800 to 0xDFFF). -/
def encodableChar (c : Nat) : Bool := decide (c < 55296) || decide (57343 < c)

/-- Whether a whole Python string can be encoded as UTF-16LE. -/
def encodable (s : PyStr) : Bool := s.all encodableChar

/-- UTF-16LE bytes of one code point (a surrogate pair above 0xFFFF). -/
def utf16leChar (c : Nat) : List Nat :=
  if c < 65536 then [c % 256, c / 256]
  else
    [(55296 + (c - 65536) / 1024) % 256, (55296 + (c - 65536) / 1024) / 256,
     (56320 + (c - 65536) % 1024) % 256, (56320 + (c - 65536) % 1024) / 256]

/-- UTF-16LE encoding of a Python string. -/
def utf16le (s : PyStr) : List Nat := s.flatMap utf16leChar

/-- Lower-case hex digit for a value below 16 (ASCII code). -/
def hexLower (n : Nat) : Nat := if n < 10 then 48 + n else 87 + n

/-- ASCII codes of `hexdigest` applied to a digest: two lower-case hex
digits per byte. -/
def hexdigest (bytes : List Nat) : List Nat :=
  bytes.flatMap (fun b => [hexLower (b / 16), hexLower (b % 16)])

/-- Python `str.upper` on one ASCII code. -/
def pyUpperChar (c : Nat) : Nat := if 97 ≤ c ∧ c ≤ 122 then c - 32 else c

/-- The digest expression of `check_rainbow_table` (process.py line 50):
`hashlib.new with md4 over pwd.encode utf-16le, hexdigest, upper, encode
utf-8`, as the ASCII byte string actually compared against table lines. -/
def ntlm_hash (pwd : PyStr) : List Nat :=
  (hexdigest (md4 (utf16le pwd))).map pyUpperChar

/-- ASCII whitespace, the set stripped by Python `bytes.strip` (space,
tab, newline, carriage return, vertical tab, form feed); `str.strip` is
modelled on the same set. -/
def isSpaceByte (c : Nat) : Bool :=
  decide (c = 32) || decide (c = 9) || decide (c = 10) ||
  decide (c = 13) || decide (c = 11) || decide (c = 12)

/-- Python `strip` with no argument: drop whitespace from both ends. -/
def pyStrip (l : List Nat) : List Nat :=
  ((l.dropWhile isSpaceByte).reverse.dropWhile isSpaceByte).reverse

/-- A Python `dict` from strings to strings, as an insertion-ordered
association list with unique keys. -/
abbrev Dict := List (PyStr × String)

/-- Python dict lookup: the value at the first (on a dict, only)
occurrence of the key. -/
def dictGet : Dict → PyStr → Option String
  | [], _ => none
  | p :: rest, k => if p.1 = k then some p.2 else dictGet rest k

/-- Python dict item assignment: update the value in place when the key
is present (a dict holds each key once), append the pair otherwise. -/
def dictSet : Dict → PyStr → String → Dict
  | [], k, v => [(k, v)]
  | p :: rest, k, v => if p.1 = k then (k, v) :: rest else p :: dictSet rest k v

/-- One file of the rainbow directory: its base name and, when it can be
opened, the raw lines the binary file iteration yields (`none` models a
file whose `open` raises). -/
structure TableFile where
  name : String
  content : Option (List (List Nat))
deriving DecidableEq

/-- The inner loop of `check_rainbow_table` (process.py lines 49-52) for
one table: for each password compute the digest and record a match; a
password that cannot be UTF-16LE-encoded raises, which the Boolean flag
reports so that the caller returns the dictionary built so far. -/
def scanPwds (tname : String) (hashes : List (List Nat)) :
    List PyStr → Dict → Dict × Bool
  | [], acc => (acc, false)
  | pwd :: rest, acc =>
      if encodable pwd then
        scanPwds tname hashes rest
          (if ntlm_hash pwd ∈ hashes then dictSet acc pwd tname else acc)
      else (acc, true)

/-- The outer loop of `check_rainbow_table` (process.py lines 46-52): per
file, build the stripped-line membership set and scan all passwords.  A
file that fails to open, or an encoding error inside the scan, raises
out of the whole loop; the broad `except` then returns the accumulated
dictionary. -/
def processFiles (passwords : List PyStr) : List TableFile → Dict → Dict
  | [], acc => acc
  | f :: rest, acc =>
      match f.content with
      | none => acc
      | some lines =>
          let r := scanPwds f.name (lines.map pyStrip) passwords acc
          if r.2 then r.1 else processFiles passwords rest r.1

/-- `check_rainbow_table` (process.py lines 41-57).  The directory state
is explicit: `none` models a missing rainbow directory, whose
`FileNotFoundError` is caught and the empty dictionary returned; `some
files` gives the regular files in the order `os.listdir` enumerates
them. -/
def check_rainbow_table (passwords : List PyStr)
    (rainbow : Option (List TableFile)) : Dict :=
  match rainbow with
  | none => []
  | some files => processFiles passwords files []

/-- Whether one table file would match a password: it opens, and the
the digest of the password is among its stripped lines. -/
def tableMatches (f : TableFile) (pwd : PyStr) : Bool :=
  match f.content with
  | none => false
  | some lines => decide (ntlm_hash pwd ∈ lines.map pyStrip)

/-- The last file of the list that matches the password, if any. -/
def lastMatch (pwd : PyStr) : List TableFile → Option String
  | [] => none
  | f :: rest =>
      match lastMatch pwd rest with
      | some n => some n
      | none => if tableMatches f pwd then some f.name else none

/-- Upper-case hex digit for a value below 16 (ASCII code). -/
def hexUpper (n : Nat) : Nat := if n < 10 then 48 + n else 55 + n

/-- Modelled from the spec (section 4.1), for the refinement claim about
the Digest Transform: encode the credential using the 16-bit
little-endian scheme, apply the legacy one-round unsalted digest (MD4),
and format the result as an uppercase hexadecimal string (ASCII codes). -/
def digestTransformSpec (pwd : PyStr) : List Nat :=
  (md4 (utf16le pwd)).flatMap (fun b => [hexUpper (b / 16), hexUpper (b % 16)])

/-- Two table files are observationally equal for the scanner: same
name, and either both fail to open or both open with the same set of
stripped lines. -/
def tableEquiv (f g : TableFile) : Bool :=
  (f.name == g.name) &&
  match f.content, g.content with
  | none, none => true
  | some lf, some lg =>
      (lf.map pyStrip).all (fun h => decide (h ∈ lg.map pyStrip)) &&
      (lg.map pyStrip).all (fun h => decide (h ∈ lf.map pyStrip))
  | _, _ => false

/-- Pointwise observational equality of two directory enumerations. -/
def tablesEquiv : List TableFile → List TableFile → Bool
  | [], [] => true
  | f :: fs, g :: gs => tableEquiv f g && tablesEquiv fs gs
  | _, _ => false

/-- Python `str.isupper` on one code point, on the ASCII range (the
Unicode categories beyond ASCII are not modelled). -/
def pyIsUpper (c : Nat) : Bool := decide (65 ≤ c) && decide (c ≤ 90)

/-- Python `str.islower` on one code point, on the ASCII range. -/
def pyIsLower (c : Nat) : Bool := decide (97 ≤ c) && decide (c ≤ 122)

/-- Python `str.isdigit` on one code point, on the ASCII range. -/
def pyIsDigit (c : Nat) : Bool := decide (48 ≤ c) && decide (c ≤ 57)

/-- Python `str.isalnum` on one code point, on the ASCII range. -/
def pyIsAlnum (c : Nat) : Bool := pyIsUpper c || pyIsLower c || pyIsDigit c

/-- `strength_check` (process.py lines 60-72). -/
def strength_check (password : PyStr) : String :=
  if password.length < 8 then "Weak"
  else if password.any pyIsUpper && password.any pyIsLower &&
          password.any pyIsDigit && password.any (fun c => !pyIsAlnum c) then "Strong"
  else if (password.any pyIsUpper || password.any pyIsLower) &&
          (password.any pyIsDigit || password.any (fun c => !pyIsAlnum c)) then "Medium"
  else "Weak"

/-- Split a string at every newline, keeping empty pieces. -/
def splitNl : List Nat → List (List Nat)
  | [] => [[]]
  | c :: rest =>
      if c = 10 then [] :: splitNl rest
      else
        match splitNl rest with
        | [] => [[c]]
        | l :: ls => (c :: l) :: ls

/-- Python `str.splitlines` restricted to newline boundaries: like
`splitNl` but with no empty piece after a trailing newline. -/
def pySplitlines (s : List Nat) : List (List Nat) :=
  if s = [] then []
  else
    let parts := splitNl s
    if parts.getLast? = some [] then parts.dropLast else parts

/-- The cleaning core of `convert_and_combine` (files.py lines 51-64):
the per-file contents having been read, join them with newlines, strip
each line, keep the non-empty ones, deduplicate, and return the list of
lines written to the output file.  The CPython `list of set` order is
unspecified; the model keeps one occurrence of each distinct line. -/
def convert_and_combine (contents : List (List Nat)) : List (List Nat) :=
  let combined := List.intercalate [10] contents
  let passwords := (pySplitlines combined).filterMap
    (fun l => if pyStrip l = [] then none else some (pyStrip l))
  passwords.dedup

/-- Outcome of the `__main__` driver of process.py. -/
inductive MainResult where
  | fileNotFound
  | emptyCredentialSet
  | analyzed (classification : Dict)
deriving DecidableEq

/-- The `__main__` flow of process.py (lines 204-217) restricted to the
classification pass: read `combined_output.txt` (given here as its raw
lines, or `none` when missing), build the stripped non-empty password
list, raise `ValueError` when it is empty, and otherwise run
`check_rainbow_table` on the rainbow directory state. -/
def mainRun (file : Option (List PyStr))
    (rainbow : Option (List TableFile)) : MainResult :=
  match file with
  | none => .fileNotFound
  | some rawLines =>
      let passwords := rawLines.filterMap
        (fun l => if pyStrip l = [] then none else some (pyStrip l))
      if passwords.isEmpty then .emptyCredentialSet
      else .analyzed (check_rainbow_table passwords rainbow)

/-! ### Lemmas about the dictionary model -/

theorem dictGet_dictSet_self (d : Dict) (k : PyStr) (v : String) :
    dictGet (dictSet d k v) k = some v := by
  induction d with
  | nil => simp [dictSet, dictGet]
  | cons p rest ih =>
      by_cases hp : p.1 = k
      · simp [dictSet, hp, dictGet]
      · simp [dictSet, hp, dictGet, ih]

theorem dictGet_dictSet_ne (d : Dict) (k k' : PyStr) (v : String) (h : k' ≠ k) :
    dictGet (dictSet d k v) k' = dictGet d k' := by
  have hne : ¬ k = k' := fun hh => h hh.symm
  induction d with
  | nil => simp [dictSet, dictGet, hne]
  | cons p rest ih =>
      by_cases hp : p.1 = k
      · have hp' : ¬ p.1 = k' := by rw [hp]; exact hne
        simp [dictSet, hp, dictGet, hne, hp']
      · simp [dictSet, hp, dictGet, ih]

/-! ### Lemmas about the password scan -/

theorem scanPwds_no_abort (tname : String) (hashes : List (List Nat))
    (pwds : List PyStr) (acc : Dict) (h : ∀ p ∈ pwds, encodable p = true) :
    (scanPwds tname hashes pwds acc).2 = false := by
  induction pwds generalizing acc with
  | nil => rfl
  | cons pwd rest ih =>
      have hpwd : encodable pwd = true := h pwd (List.mem_cons_self _ _)
      simp only [scanPwds, hpwd, if_true]
      exact ih _ (fun p hp => h p (List.mem_cons_of_mem _ hp))

theorem scanPwds_get (tname : String) (hashes : List (List Nat))
    (pwds : List PyStr) (acc : Dict) (h : ∀ p ∈ pwds, encodable p = true)
    (q : PyStr) :
    dictGet (scanPwds tname hashes pwds acc).1 q =
      if q ∈ pwds ∧ ntlm_hash q ∈ hashes then some tname else dictGet acc q := by
  induction pwds generalizing acc with
  | nil => simp [scanPwds]
  | cons pwd rest ih =>
      have hpwd : encodable pwd = true := h pwd (List.mem_cons_self _ _)
      have hrest : ∀ p ∈ rest, encodable p = true :=
        fun p hp => h p (List.mem_cons_of_mem _ hp)
      simp only [scanPwds, hpwd, if_true]
      rw [ih _ hrest]
      by_cases hq : q ∈ rest ∧ ntlm_hash q ∈ hashes
      · simp only [if_pos hq]
        have : q ∈ pwd :: rest ∧ ntlm_hash q ∈ hashes :=
          ⟨List.mem_cons_of_mem _ hq.1, hq.2⟩
        simp [this]
      · simp only [if_neg hq]
        by_cases hqp : q = pwd
        · subst hqp
          by_cases hm : ntlm_hash q ∈ hashes
          · have : q ∈ q :: rest ∧ ntlm_hash q ∈ hashes :=
              ⟨List.mem_cons_self _ _, hm⟩
            simp [this, hm, dictGet_dictSet_self]
          · have : ¬(q ∈ q :: rest ∧ ntlm_hash q ∈ hashes) := fun hc => hm hc.2
            simp [this, hm]
        · have hcons : (q ∈ pwd :: rest ∧ ntlm_hash q ∈ hashes) ↔
              (q ∈ rest ∧ ntlm_hash q ∈ hashes) := by
            constructor
            · rintro ⟨hmem, hh⟩
              rcases List.mem_cons.mp hmem with h1 | h1
              · exact absurd h1 hqp
              · exact ⟨h1, hh⟩
            · rintro ⟨hmem, hh⟩
              exact ⟨List.mem_cons_of_mem _ hmem, hh⟩
          rw [if_neg (fun hc => hq (hcons.mp hc))]
          by_cases hm : ntlm_hash pwd ∈ hashes
          · simp [hm, dictGet_dictSet_ne _ _ _ _ hqp]
          · simp [hm]

theorem scanPwds_abort (tname : String) (hashes : List (List Nat))
    (pre post : List PyStr) (bad : PyStr) (acc : Dict)
    (hpre : ∀ p ∈ pre, encodable p = true) (hbad : encodable bad = false) :
    scanPwds tname hashes (pre ++ bad :: post) acc =
      ((scanPwds tname hashes pre acc).1, true) := by
  induction pre generalizing acc with
  | nil => simp [scanPwds, hbad]
  | cons p pre' ih =>
      have hp : encodable p = true := hpre p (List.mem_cons_self _ _)
      simp only [List.cons_append, scanPwds, hp, if_true]
      exact ih _ (fun x hx => hpre x (List.mem_cons_of_mem _ hx))

theorem scanPwds_sound (tname : String) (hashes : List (List Nat))
    (pwds : List PyStr) (acc : Dict) (q : PyStr) (t : String)
    (h : dictGet (scanPwds tname hashes pwds acc).1 q = some t) :
    dictGet acc q = some t ∨ (q ∈ pwds ∧ t = tname ∧ ntlm_hash q ∈ hashes) := by
  induction pwds generalizing acc with
  | nil => exact Or.inl h
  | cons pwd rest ih =>
      by_cases hpwd : encodable pwd = true
      · simp only [scanPwds, hpwd, if_true] at h
        rcases ih _ h with h1 | h1
        · by_cases hm : ntlm_hash pwd ∈ hashes
          · simp only [if_pos hm] at h1
            by_cases hqp : q = pwd
            · subst hqp
              rw [dictGet_dictSet_self] at h1
              exact Or.inr ⟨List.mem_cons_self _ _, (Option.some.inj h1).symm, hm⟩
            · rw [dictGet_dictSet_ne _ _ _ _ hqp] at h1
              exact Or.inl h1
          · simp only [if_neg hm] at h1
            exact Or.inl h1
        · exact Or.inr ⟨List.mem_cons_of_mem _ h1.1, h1.2⟩
      · have hb : encodable pwd = false := Bool.eq_false_iff.mpr hpwd
        simp only [scanPwds, hb] at h
        simp at h
        exact Or.inl h

/-! ### Lemmas about the file-processing loop -/

theorem processFiles_get (pws : List PyStr) (files : List TableFile) (acc : Dict)
    (hp : ∀ p ∈ pws, encodable p = true)
    (hf : ∀ f ∈ files, f.content.isSome)
    (q : PyStr) (hq : q ∈ pws) :
    dictGet (processFiles pws files acc) q =
      match lastMatch q files with
      | some n => some n
      | none => dictGet acc q := by
  induction files generalizing acc with
  | nil => simp [processFiles, lastMatch]
  | cons f rest ih =>
      obtain ⟨lines, hl⟩ := Option.isSome_iff_exists.mp (hf f (List.mem_cons_self _ _))
      have hrest : ∀ g ∈ rest, g.content.isSome :=
        fun g hg => hf g (List.mem_cons_of_mem _ hg)
      have hnoab := scanPwds_no_abort f.name (lines.map pyStrip) pws acc hp
      simp only [processFiles, hl, hnoab, Bool.false_eq_true, if_false]
      rw [ih _ hrest]
      have hacc : dictGet (scanPwds f.name (lines.map pyStrip) pws acc).1 q =
          if tableMatches f q = true then some f.name else dictGet acc q := by
        rw [scanPwds_get _ _ _ _ hp q]
        by_cases hm : ntlm_hash q ∈ lines.map pyStrip
        · have : q ∈ pws ∧ ntlm_hash q ∈ lines.map pyStrip := ⟨hq, hm⟩
          simp [this, tableMatches, hl, hm]
        · have : ¬(q ∈ pws ∧ ntlm_hash q ∈ lines.map pyStrip) := fun hc => hm hc.2
          simp [this, tableMatches, hl, hm]
      simp only [lastMatch]
      cases hlast : lastMatch q rest with
      | some n => rfl
      | none =>
          rw [hacc]
          by_cases ht : tableMatches f q = true
          · simp [ht]
          · have ht' : tableMatches f q = false := Bool.eq_false_iff.mpr ht
            simp [ht']

theorem processFiles_sound (pws : List PyStr) (files : List TableFile)
    (acc : Dict) (q : PyStr) (t : String)
    (h : dictGet (processFiles pws files acc) q = some t) :
    dictGet acc q = some t ∨
      (q ∈ pws ∧ ∃ f ∈ files, f.name = t ∧ tableMatches f q = true) := by
  induction files generalizing acc with
  | nil => exact Or.inl h
  | cons f rest ih =>
      cases hl : f.content with
      | none =>
          simp only [processFiles, hl] at h
          exact Or.inl h
      | some lines =>
          simp only [processFiles, hl] at h
          by_cases hab : (scanPwds f.name (lines.map pyStrip) pws acc).2 = true
          · rw [if_pos hab] at h
            rcases scanPwds_sound _ _ _ _ _ _ h with h1 | h1
            · exact Or.inl h1
            · exact Or.inr ⟨h1.1, f, List.mem_cons_self _ _, h1.2.1.symm ▸ rfl,
                by simp [tableMatches, hl, h1.2.2]⟩
          · rw [if_neg hab] at h
            rcases ih _ h with h1 | h1
            · rcases scanPwds_sound _ _ _ _ _ _ h1 with h2 | h2
              · exact Or.inl h2
              · exact Or.inr ⟨h2.1, f, List.mem_cons_self _ _, h2.2.1.symm ▸ rfl,
                  by simp [tableMatches, hl, h2.2.2]⟩
            · exact Or.inr ⟨h1.1, h1.2.elim (fun g hg => ⟨g, List.mem_cons_of_mem _ hg.1, hg.2⟩)⟩

theorem processFiles_unavailable (pws : List PyStr) (pre post : List TableFile)
    (f : TableFile) (acc : Dict) (hf : f.content = none) :
    processFiles pws (pre ++ f :: post) acc = processFiles pws pre acc := by
  induction pre generalizing acc with
  | nil => simp [processFiles, hf]
  | cons g pre' ih =>
      cases hg : g.content with
      | none => simp [processFiles, hg]
      | some lines =>
          simp only [List.cons_append, processFiles, hg]
          by_cases hab : (scanPwds g.name (lines.map pyStrip) pws acc).2 = true
          · rw [if_pos hab, if_pos hab]
          · rw [if_neg hab, if_neg hab]
            exact ih _

theorem lastMatch_eq_none_iff (q : PyStr) (files : List TableFile) :
    lastMatch q files = none ↔ ∀ f ∈ files, tableMatches f q = false := by
  induction files with
  | nil => simp [lastMatch]
  | cons f rest ih =>
      simp only [lastMatch]
      cases hlast : lastMatch q rest with
      | some n =>
          simp only []
          constructor
          · intro hc; exact absurd hc (by simp)
          · intro hall
            have : lastMatch q rest = none :=
              ih.mpr (fun g hg => hall g (List.mem_cons_of_mem _ hg))
            rw [hlast] at this; exact absurd this (by simp)
      | none =>
          constructor
          · intro hc
            by_cases ht : tableMatches f q = true
            · rw [if_pos ht] at hc; exact absurd hc (by simp)
            · intro g hg
              rcases List.mem_cons.mp hg with h1 | h1
              · subst h1; exact Bool.eq_false_iff.mpr ht
              · exact (ih.mp hlast) g h1
          · intro hall
            have hf : tableMatches f q = false := hall f (List.mem_cons_self _ _)
            simp [hf]

theorem getLast?_cons_eq (a : String) (l : List String) :
    (a :: l).getLast? = match l.getLast? with | some x => some x | none => some a := by
  cases l with
  | nil => simp
  | cons b m =>
      rw [List.getLast?_cons_cons]
      obtain ⟨x, hx⟩ := Option.isSome_iff_exists.mp
        (List.getLast?_isSome.mpr (by simp) : ((b :: m).getLast?).isSome)
      rw [hx]

theorem lastMatch_eq_filter_getLast (q : PyStr) (files : List TableFile) :
    lastMatch q files =
      ((files.filter (fun f => tableMatches f q)).map TableFile.name).getLast? := by
  induction files with
  | nil => simp [lastMatch]
  | cons f rest ih =>
      by_cases ht : tableMatches f q = true
      · have hfil : (f :: rest).filter (fun f => tableMatches f q) =
            f :: rest.filter (fun f => tableMatches f q) := by
          simp [List.filter_cons, ht]
        rw [hfil, List.map_cons, getLast?_cons_eq, ← ih]
        simp only [lastMatch]
        cases hlast : lastMatch q rest with
        | some n => rfl
        | none => simp [ht]
      · have hfil : (f :: rest).filter (fun f => tableMatches f q) =
            rest.filter (fun f => tableMatches f q) := by
          simp [List.filter_cons, ht]
        rw [hfil, ← ih]
        simp only [lastMatch]
        cases hlast : lastMatch q rest with
        | some n => rfl
        | none => simp [ht]

/-! ### Congruence of the scan under observational table equality -/

theorem scanPwds_congr (tname : String) (hs1 hs2 : List (List Nat))
    (hiff : ∀ h, h ∈ hs1 ↔ h ∈ hs2) (pwds : List PyStr) (acc : Dict) :
    scanPwds tname hs1 pwds acc = scanPwds tname hs2 pwds acc := by
  induction pwds generalizing acc with
  | nil => rfl
  | cons pwd rest ih =>
      by_cases hpwd : encodable pwd = true
      · simp only [scanPwds, hpwd, if_true]
        rw [if_congr (hiff (ntlm_hash pwd)) rfl rfl]
        exact ih _
      · have hb : encodable pwd = false := Bool.eq_false_iff.mpr hpwd
        simp [scanPwds, hb]

theorem tableEquiv_names (f g : TableFile) (h : tableEquiv f g = true) :
    f.name = g.name := by
  have := Bool.and_elim_left h
  exact eq_of_beq this

theorem tableEquiv_content_none (f g : TableFile) (h : tableEquiv f g = true)
    (hf : f.content = none) : g.content = none := by
  have hr := Bool.and_elim_right h
  rw [hf] at hr
  cases hg : g.content with
  | none => rfl
  | some lg => rw [hg] at hr; simp at hr

theorem tableEquiv_mem_iff (f g : TableFile) (h : tableEquiv f g = true)
    (lf lg : List (List Nat)) (hf : f.content = some lf) (hg : g.content = some lg) :
    ∀ x, x ∈ lf.map pyStrip ↔ x ∈ lg.map pyStrip := by
  have hr := Bool.and_elim_right h
  rw [hf, hg] at hr
  have h1 := Bool.and_elim_left hr
  have h2 := Bool.and_elim_right hr
  rw [List.all_eq_true] at h1 h2
  intro x
  constructor
  · intro hx
    have := h1 x hx
    exact of_decide_eq_true this
  · intro hx
    have := h2 x hx
    exact of_decide_eq_true this

theorem processFiles_congr (pws : List PyStr) (fs1 fs2 : List TableFile)
    (heq : tablesEquiv fs1 fs2 = true) (acc : Dict) :
    processFiles pws fs1 acc = processFiles pws fs2 acc := by
  induction fs1 generalizing fs2 acc with
  | nil => cases fs2 with
    | nil => rfl
    | cons g gs => simp [tablesEquiv] at heq
  | cons f fs ih =>
      cases fs2 with
      | nil => simp [tablesEquiv] at heq
      | cons g gs =>
          have hfg : tableEquiv f g = true := by
            have := heq
            simp only [tablesEquiv, Bool.and_eq_true] at this
            exact this.1
          have hfs : tablesEquiv fs gs = true := by
            simp only [tablesEquiv, Bool.and_eq_true] at heq
            exact heq.2
          have hname : f.name = g.name := tableEquiv_names f g hfg
          cases hf : f.content with
          | none =>
              have hg : g.content = none := tableEquiv_content_none f g hfg hf
              simp [processFiles, hf, hg]
          | some lf =>
              cases hg : g.content with
              | none =>
                  have := tableEquiv_content_none g f (by
                    have hr := Bool.and_elim_right hfg
                    rw [hf, hg] at hr
                    simp at hr) hg
                  rw [this] at hf; simp at hf
              | some lg =>
                  have hmem := tableEquiv_mem_iff f g hfg lf lg hf hg
                  simp only [processFiles, hf, hg]
                  rw [hname, scanPwds_congr g.name (lf.map pyStrip) (lg.map pyStrip) hmem pws acc]
                  by_cases hab : (scanPwds g.name (lg.map pyStrip) pws acc).2 = true
                  · rw [if_pos hab, if_pos hab]
                  · rw [if_neg hab, if_neg hab]
                    exact ih gs hfs _

/-! ### Lemmas about the digest formatting -/

theorem pyUpperChar_hex_digit : ∀ n < 16, pyUpperChar (hexLower n) = hexUpper n := by decide

theorem md4_bytes_lt (msg : List Nat) : ∀ b ∈ md4 msg, b < 256 := by
  intro b hb
  simp only [md4, le32, List.mem_append, List.mem_cons, List.not_mem_nil, or_false] at hb
  omega

theorem map_pyUpperChar_hexdigest (bs : List Nat) (h : ∀ b ∈ bs, b < 256) :
    (hexdigest bs).map pyUpperChar =
      bs.flatMap (fun b => [hexUpper (b / 16), hexUpper (b % 16)]) := by
  induction bs with
  | nil => rfl
  | cons b rest ih =>
      have hb : b < 256 := h b (List.mem_cons_self _ _)
      have hd : b / 16 < 16 := by omega
      have hm : b % 16 < 16 := by omega
      simp only [hexdigest, List.flatMap_cons, List.map_append, List.map_cons, List.map_nil]
      rw [pyUpperChar_hex_digit _ hd, pyUpperChar_hex_digit _ hm]
      congr 1
      exact ih (fun x hx => h x (List.mem_cons_of_mem _ hx))

/-! ### Concrete fixtures: table files holding published NTLM digests -/

/-- A table holding the NTLM digest of the string abc123. -/
def tblA : TableFile := ⟨"a.hash", some [strCodes "F9E37E83B83C47A93C2F09F66408631B"]⟩

/-- A second table holding the same digest of abc123. -/
def tblB : TableFile := ⟨"b.hash", some [strCodes "F9E37E83B83C47A93C2F09F66408631B"]⟩

/-- A table holding the NTLM digest of the string password. -/
def tblT1 : TableFile := ⟨"t1.hash", some [strCodes "8846F7EAEE8FB117AD06BDD830B7586C"]⟩

/-- A table whose open raises, as for a file that does not exist. -/
def tblMissing : TableFile := ⟨"missing.hash", none⟩

/-- A table holding the digest of abc123, placed after the missing one. -/
def tblT3 : TableFile := ⟨"t3.hash", some [strCodes "F9E37E83B83C47A93C2F09F66408631B"]⟩

/-! ### Claim theorems -/

/-- C1, counterexample: with tables a.hash then b.hash (in that listdir
order) both containing the digest of abc123, `check_rainbow_table`
attributes abc123 to b.hash, not to a.hash: later matches overwrite
earlier ones, refuting the first-table-wins claim. -/
theorem first_table_wins_cex :
    dictGet (check_rainbow_table [strCodes "abc123"] (some [tblA, tblB]))
        (strCodes "abc123") = some "b.hash" ∧
    dictGet (check_rainbow_table [strCodes "abc123"] (some [tblA, tblB]))
        (strCodes "abc123") ≠ some "a.hash" := by decide

/-- C1, amended: when the digest of a credential is present in two or more
processed tables (all credentials encodable, all tables openable), the
final result attributes the credential to the LAST such table in the
processing order, earlier matches being overwritten. -/
theorem last_table_wins (pws : List PyStr) (files : List TableFile)
    (hp : ∀ p ∈ pws, encodable p = true)
    (hf : ∀ f ∈ files, f.content.isSome)
    (q : PyStr) (hq : q ∈ pws) (n : String)
    (_h2 : 2 ≤ (files.filter (fun f => tableMatches f q)).length)
    (hn : ((files.filter (fun f => tableMatches f q)).map TableFile.name).getLast? =
      some n) :
    dictGet (check_rainbow_table pws (some files)) q = some n := by
  simp only [check_rainbow_table]
  rw [processFiles_get pws files [] hp hf q hq]
  rw [← lastMatch_eq_filter_getLast] at hn
  rw [hn]

/-- C1, witness for the amended theorem at the a.hash/b.hash scenario. -/
theorem last_table_wins_witness :
    dictGet (check_rainbow_table [strCodes "abc123"] (some [tblA, tblB]))
        (strCodes "abc123") = some "b.hash" :=
  last_table_wins [strCodes "abc123"] [tblA, tblB] (by decide) (by decide)
    (strCodes "abc123") (by decide) "b.hash" (by decide) (by decide)

/-- C2: when every credential is encodable and every table opens, the
domain of the result is a subset of the credential list, and a
credential is in the domain exactly when its digest occurs in at least
one processed table. -/
theorem classification_domain (pws : List PyStr) (files : List TableFile)
    (hp : ∀ p ∈ pws, encodable p = true)
    (hf : ∀ f ∈ files, f.content.isSome) :
    (∀ q t, dictGet (check_rainbow_table pws (some files)) q = some t → q ∈ pws) ∧
    (∀ q ∈ pws, (dictGet (check_rainbow_table pws (some files)) q).isSome = true ↔
      ∃ f ∈ files, tableMatches f q = true) := by
  constructor
  · intro q t h
    simp only [check_rainbow_table] at h
    rcases processFiles_sound pws files [] q t h with h1 | h1
    · exact absurd h1 (by simp [dictGet])
    · exact h1.1
  · intro q hq
    simp only [check_rainbow_table]
    rw [processFiles_get pws files [] hp hf q hq]
    cases hlast : lastMatch q files with
    | some n =>
        simp only [Option.isSome_some, true_iff]
        by_contra hcon
        push_neg at hcon
        have hall : ∀ f ∈ files, tableMatches f q = false := by
          intro f hf'
          exact Bool.eq_false_iff.mpr (hcon f hf')
        rw [(lastMatch_eq_none_iff q files).mpr hall] at hlast
        exact Option.noConfusion hlast
    | none =>
        simp only [dictGet, Option.isSome_none, Bool.false_eq_true, false_iff]
        rintro ⟨f, hf', ht⟩
        have := (lastMatch_eq_none_iff q files).mp hlast f hf'
        rw [ht] at this
        exact Bool.noConfusion this

/-- C2, witness: the spec scenario with credentials password and
Tr0ub4dor&3 and the single table t1.hash holding the digest of
password; the result is exactly the singleton mapping. -/
theorem classification_domain_witness :
    (∀ q t, dictGet (check_rainbow_table [strCodes "password", strCodes "Tr0ub4dor&3"]
        (some [tblT1])) q = some t →
      q ∈ [strCodes "password", strCodes "Tr0ub4dor&3"]) ∧
    ((dictGet (check_rainbow_table [strCodes "password", strCodes "Tr0ub4dor&3"]
        (some [tblT1])) (strCodes "password")).isSome = true ↔
      ∃ f ∈ [tblT1], tableMatches f (strCodes "password") = true) ∧
    check_rainbow_table [strCodes "password", strCodes "Tr0ub4dor&3"] (some [tblT1]) =
      [(strCodes "password", "t1.hash")] ∧
    dictGet (check_rainbow_table [strCodes "password", strCodes "Tr0ub4dor&3"]
        (some [tblT1])) (strCodes "Tr0ub4dor&3") = none :=
  ⟨(classification_domain [strCodes "password", strCodes "Tr0ub4dor&3"] [tblT1]
      (by decide) (by decide)).1,
   (classification_domain [strCodes "password", strCodes "Tr0ub4dor&3"] [tblT1]
      (by decide) (by decide)).2 (strCodes "password") (by decide),
   by decide, by decide⟩

/-- C3, counterexample: the same set of table files enumerated in two
different directory orders gives two different Classification Results,
so the processing order is inherited from the incidental enumeration
order, not explicitly fixed. -/
theorem order_independence_cex :
    ([tblA, tblB] : List TableFile).Perm [tblB, tblA] ∧
    check_rainbow_table [strCodes "abc123"] (some [tblA, tblB]) ≠
      check_rainbow_table [strCodes "abc123"] (some [tblB, tblA]) := by
  constructor
  · exact List.Perm.swap tblB tblA []
  · decide

/-- C3, amended: for a fixed credential list, the result is a
deterministic function of the enumerated table sequence: any two
directory enumerations that pairwise agree on file name and
stripped-digest membership (even with different line order, duplicate
lines or whitespace) give identical results.  The order itself is the
enumeration order, not an explicitly fixed one. -/
theorem classification_deterministic (pws : List PyStr) (fs1 fs2 : List TableFile)
    (heq : tablesEquiv fs1 fs2 = true) :
    check_rainbow_table pws (some fs1) = check_rainbow_table pws (some fs2) := by
  simp only [check_rainbow_table]
  exact processFiles_congr pws fs1 fs2 heq []

/-- C3, witness: the same table stored with duplicated lines and a
trailing newline yields an identical run. -/
theorem classification_deterministic_witness :
    check_rainbow_table [strCodes "abc123"] (some [tblA]) =
      check_rainbow_table [strCodes "abc123"]
        (some [⟨"a.hash", some [strCodes "F9E37E83B83C47A93C2F09F66408631B" ++ [10],
                                strCodes "F9E37E83B83C47A93C2F09F66408631B"]⟩]) :=
  classification_deterministic [strCodes "abc123"] _ _ (by decide)

/-- C4, counterexample: with tables t1.hash, missing.hash (unopenable),
t3.hash in that order, the run returns only the match from t1.hash:
t3.hash is never scanned even though it contains the digest of abc123,
refuting the only-that-source-is-skipped claim (and no skipped-source
count exists in the returned value). -/
theorem missing_table_skip_cex :
    check_rainbow_table [strCodes "password", strCodes "abc123"]
        (some [tblT1, tblMissing, tblT3]) = [(strCodes "password", "t1.hash")] ∧
    tableMatches tblT3 (strCodes "abc123") = true ∧
    dictGet (check_rainbow_table [strCodes "password", strCodes "abc123"]
        (some [tblT1, tblMissing, tblT3])) (strCodes "abc123") = none := by decide

/-- C4, amended: when a table source cannot be opened, its scan AND the
scans of all following sources are abandoned; the run completes and
returns exactly the Classification Result of the sources preceding the
failure, and no skipped-source count is reported. -/
theorem unopenable_table_aborts_rest (pws : List PyStr)
    (pre post : List TableFile) (f : TableFile) (hf : f.content = none) :
    check_rainbow_table pws (some (pre ++ f :: post)) =
      check_rainbow_table pws (some pre) := by
  simp only [check_rainbow_table]
  exact processFiles_unavailable pws pre post f [] hf

/-- C4, witness for the amended theorem at the missing.hash scenario. -/
theorem unopenable_table_aborts_rest_witness :
    check_rainbow_table [strCodes "password", strCodes "abc123"]
        (some ([tblT1] ++ tblMissing :: [tblT3])) =
      check_rainbow_table [strCodes "password", strCodes "abc123"] (some [tblT1]) :=
  unopenable_table_aborts_rest [strCodes "password", strCodes "abc123"]
    [tblT1] [tblT3] tblMissing rfl

/-- C5, counterexample: with an unencodable credential (a lone
surrogate) listed before password, the whole scan aborts: password is
not classified although its digest is in the available table t1.hash,
refuting the only-that-credential-is-skipped claim. -/
theorem encoding_error_skip_cex :
    encodable [55296] = false ∧
    tableMatches tblT1 (strCodes "password") = true ∧
    check_rainbow_table [[55296], strCodes "password"] (some [tblT1]) = [] := by decide

/-- C5, amended: an unencodable credential aborts the whole scanning
loop at the point it is first digested: the run returns only the matches
of the credentials preceding it against the first table, and no later
credential or table source is processed. -/
theorem encoding_error_aborts_run (pre post : List PyStr) (bad : PyStr)
    (hpre : ∀ p ∈ pre, encodable p = true) (hbad : encodable bad = false)
    (fname : String) (lines : List (List Nat)) (rest : List TableFile) :
    check_rainbow_table (pre ++ bad :: post)
        (some (⟨fname, some lines⟩ :: rest)) =
      (scanPwds fname (lines.map pyStrip) pre []).1 := by
  simp only [check_rainbow_table, processFiles]
  rw [scanPwds_abort fname (lines.map pyStrip) pre post bad [] hpre hbad]
  simp

/-- C5, witness for the amended theorem: the lone-surrogate credential
after password leaves only the match for password. -/
theorem encoding_error_aborts_run_witness :
    check_rainbow_table ([strCodes "password"] ++ [55296] :: [])
        (some (⟨"t1.hash", some [strCodes "8846F7EAEE8FB117AD06BDD830B7586C"]⟩ :: [])) =
      (scanPwds "t1.hash"
        ([strCodes "8846F7EAEE8FB117AD06BDD830B7586C"].map pyStrip)
        [strCodes "password"] []).1 :=
  encoding_error_aborts_run [strCodes "password"] [] [55296] (by decide) (by decide)
    "t1.hash" [strCodes "8846F7EAEE8FB117AD06BDD830B7586C"] []

/-- C6: the Digest Transform of the source (UTF-16LE encode, MD4,
lower-case hexdigest, upper) coincides, for every encodable credential,
with the description given by the spec (UTF-16LE encode, MD4, uppercase hex), and
being a function it yields the same Digest Key on every application. -/
theorem digest_transform_spec (pwd : PyStr) (_henc : encodable pwd = true) :
    ntlm_hash pwd = digestTransformSpec pwd ∧ ntlm_hash pwd = ntlm_hash pwd := by
  refine ⟨?_, rfl⟩
  unfold ntlm_hash digestTransformSpec
  exact map_pyUpperChar_hexdigest (md4 (utf16le pwd)) (md4_bytes_lt (utf16le pwd))

/-- C6, witness: at the credential password, whose published NTLM digest
is 8846F7EAEE8FB117AD06BDD830B7586C. -/
theorem digest_transform_spec_witness :
    (encodable (strCodes "password") = true ∧
      ntlm_hash (strCodes "password") = digestTransformSpec (strCodes "password")) ∧
    ntlm_hash (strCodes "password") =
      strCodes "8846F7EAEE8FB117AD06BDD830B7586C" :=
  ⟨⟨by decide, (digest_transform_spec (strCodes "password") (by decide)).1⟩, by decide⟩

/-- C7: when the stripped non-empty lines of combined_output.txt are
empty, the driver raises the fatal empty-input error, whatever the state
of the rainbow directory: no table source is consulted and no
Classification Result is produced. -/
theorem empty_credential_set_fatal (rawLines : List PyStr)
    (h : rawLines.filterMap
      (fun l => if pyStrip l = [] then none else some (pyStrip l)) = [])
    (rainbow : Option (List TableFile)) :
    mainRun (some rawLines) rainbow = MainResult.emptyCredentialSet := by
  simp [mainRun, h]

/-- C7, witness: a file of only blank lines, with a populated rainbow
directory present. -/
theorem empty_credential_set_fatal_witness :
    mainRun (some [strCodes "   ", [], strCodes "\t"]) (some [tblT1]) =
      MainResult.emptyCredentialSet :=
  empty_credential_set_fatal [strCodes "   ", [], strCodes "\t"] (by decide)
    (some [tblT1])

theorem count_eq_one_of_nodup_mem (l : List (List Nat)) (hnd : l.Nodup)
    (x : List Nat) (hx : x ∈ l) : l.count x = 1 := by
  induction l with
  | nil => cases hx
  | cons a rest ih =>
      rw [List.count_cons]
      rcases List.mem_cons.mp hx with h | h
      · subst h
        have hnot : x ∉ rest := (List.nodup_cons.mp hnd).1
        have hz : rest.count x = 0 := by
          rw [List.count_eq_zero]
          exact hnot
        simp [hz]
      · have hne : ¬ a = x := by
          intro he
          subst he
          exact (List.nodup_cons.mp hnd).1 h
        have hb : (a == x) = false := by
          cases hbe : a == x
          · rfl
          · exact absurd (eq_of_beq hbe) hne
        rw [ih (List.nodup_cons.mp hnd).2 h, hb]
        simp

/-- C8: every line the ingestion step writes is the strip of some line
of the merged input text, is non-empty, and occurs exactly once in the
output. -/
theorem ingestion_clean (contents : List (List Nat)) (l : List Nat)
    (hl : l ∈ convert_and_combine contents) :
    (∃ line ∈ pySplitlines (List.intercalate [10] contents), l = pyStrip line) ∧
    l ≠ [] ∧ (convert_and_combine contents).count l = 1 := by
  have hmem : l ∈ (pySplitlines (List.intercalate [10] contents)).filterMap
      (fun l => if pyStrip l = [] then none else some (pyStrip l)) := by
    have := hl
    simp only [convert_and_combine] at this
    exact List.mem_dedup.mp this
  obtain ⟨line, hline, hopt⟩ := List.mem_filterMap.mp hmem
  by_cases hs : pyStrip line = []
  · rw [if_pos hs] at hopt
    exact Option.noConfusion hopt
  · rw [if_neg hs] at hopt
    have hls : l = pyStrip line := (Option.some.inj hopt).symm
    refine ⟨⟨line, hline, hls⟩, hls ▸ hs, ?_⟩
    have hnd : (convert_and_combine contents).Nodup := by
      simp only [convert_and_combine]
      exact List.nodup_dedup _
    exact count_eq_one_of_nodup_mem _ hnd _ hl

/-- C8, witness: two input files with overlapping, padded lines; the
line password appears once, stripped. -/
theorem ingestion_clean_witness :
    (∃ line ∈ pySplitlines (List.intercalate [10]
        [strCodes "  password  ", strCodes "password\nadmin"]),
      strCodes "password" = pyStrip line) ∧
    strCodes "password" ≠ [] ∧
    (convert_and_combine [strCodes "  password  ", strCodes "password\nadmin"]).count
      (strCodes "password") = 1 :=
  ingestion_clean [strCodes "  password  ", strCodes "password\nadmin"]
    (strCodes "password") (by decide)

/-- C9: `check_rainbow_table` is total over the modelled directory
states: a missing directory yields the empty mapping, and whatever
errors interrupt a scan, every entry of the returned dictionary is a
credential from the input list attributed to a listed table whose
stripped lines really contain its digest. -/
theorem check_rainbow_table_total (pws : List PyStr) :
    check_rainbow_table pws none = [] ∧
    (∀ files q t, dictGet (check_rainbow_table pws (some files)) q = some t →
      q ∈ pws ∧ ∃ f ∈ files, f.name = t ∧ tableMatches f q = true) := by
  refine ⟨rfl, ?_⟩
  intro files q t h
  simp only [check_rainbow_table] at h
  rcases processFiles_sound pws files [] q t h with h1 | h1
  · exact absurd h1 (by simp [dictGet])
  · exact h1

/-- C9, witness: the missing-directory case returns the empty mapping,
and the single entry of a successful run is a genuine attributed
match. -/
theorem check_rainbow_table_total_witness :
    check_rainbow_table [strCodes "password"] none = [] ∧
    (strCodes "password" ∈ [strCodes "password"] ∧
      ∃ f ∈ [tblT1], f.name = "t1.hash" ∧
        tableMatches f (strCodes "password") = true) :=
  ⟨(check_rainbow_table_total [strCodes "password"]).1,
   (check_rainbow_table_total [strCodes "password"]).2 [tblT1]
     (strCodes "password") "t1.hash" (by decide)⟩

/-- C10: `strength_check` always returns one of Weak, Medium, Strong;
any password shorter than 8 code points is Weak; a password of length at
least 8 is Strong exactly when it contains an upper-case letter, a
lower-case letter, a digit and a non-alphanumeric character. -/
theorem strength_check_classification (pwd : PyStr) :
    (strength_check pwd = "Weak" ∨ strength_check pwd = "Medium" ∨
      strength_check pwd = "Strong") ∧
    (pwd.length < 8 → strength_check pwd = "Weak") ∧
    (8 ≤ pwd.length → (strength_check pwd = "Strong" ↔
      (pwd.any pyIsUpper = true ∧ pwd.any pyIsLower = true ∧
       pwd.any pyIsDigit = true ∧ pwd.any (fun c => !pyIsAlnum c) = true))) := by
  by_cases h1 : pwd.length < 8
  · refine ⟨Or.inl ?_, fun _ => ?_, fun h8 => absurd h1 (by omega)⟩
    · simp [strength_check, h1]
    · simp [strength_check, h1]
  · by_cases hS : (pwd.any pyIsUpper && pwd.any pyIsLower && pwd.any pyIsDigit &&
        pwd.any fun c => !pyIsAlnum c) = true
    · have hstr : strength_check pwd = "Strong" := by
        simp only [strength_check, if_neg h1]
        rw [if_pos hS]
      have hc : pwd.any pyIsUpper = true ∧ pwd.any pyIsLower = true ∧
          pwd.any pyIsDigit = true ∧ pwd.any (fun c => !pyIsAlnum c) = true := by
        simp only [Bool.and_eq_true] at hS
        exact ⟨hS.1.1.1, hS.1.1.2, hS.1.2, hS.2⟩
      exact ⟨Or.inr (Or.inr hstr), fun hc' => absurd hc' h1,
        fun _ => iff_of_true hstr hc⟩
    · have hval : strength_check pwd = "Medium" ∨ strength_check pwd = "Weak" := by
        simp only [strength_check, if_neg h1]
        rw [if_neg hS]
        by_cases hM : ((pwd.any pyIsUpper || pwd.any pyIsLower) &&
            (pwd.any pyIsDigit || pwd.any fun c => !pyIsAlnum c)) = true
        · rw [if_pos hM]; exact Or.inl rfl
        · rw [if_neg hM]; exact Or.inr rfl
      have hnc : ¬(pwd.any pyIsUpper = true ∧ pwd.any pyIsLower = true ∧
          pwd.any pyIsDigit = true ∧ pwd.any (fun c => !pyIsAlnum c) = true) := by
        intro hc
        apply hS
        simp only [Bool.and_eq_true]
        exact ⟨⟨⟨hc.1, hc.2.1⟩, hc.2.2.1⟩, hc.2.2.2⟩
      have hnstr : strength_check pwd ≠ "Strong" := by
        rcases hval with hv | hv <;> rw [hv] <;> decide
      refine ⟨?_, fun hc' => absurd hc' h1, fun _ => iff_of_false hnstr hnc⟩
      rcases hval with hv | hv
      · exact Or.inr (Or.inl hv)
      · exact Or.inl hv

/-- C10, witness: instantiation at the password Aa1!aaaa. -/
theorem strength_check_classification_witness :
    (strength_check (strCodes "Aa1!aaaa") = "Weak" ∨
      strength_check (strCodes "Aa1!aaaa") = "Medium" ∨
      strength_check (strCodes "Aa1!aaaa") = "Strong") ∧
    ((strCodes "Aa1!aaaa").length < 8 →
      strength_check (strCodes "Aa1!aaaa") = "Weak") ∧
    (8 ≤ (strCodes "Aa1!aaaa").length →
      (strength_check (strCodes "Aa1!aaaa") = "Strong" ↔
        ((strCodes "Aa1!aaaa").any pyIsUpper = true ∧
         (strCodes "Aa1!aaaa").any pyIsLower = true ∧
         (strCodes "Aa1!aaaa").any pyIsDigit = true ∧
         (strCodes "Aa1!aaaa").any (fun c => !pyIsAlnum c) = true))) :=
  strength_check_classification (strCodes "Aa1!aaaa")
